import Mathlib

/-!
Verification of the `prism` DA crate: the `FinalizedEpoch` signing and
verification protocol (`src/crates/da/src/lib.rs`) and the
`DataAvailabilityLayer` contract.

The record type and the bodies of `insert_signature` / `verify_signature`
are embedded directly from the source.  The collaborating crates
(`prism_keys`, `prism_serde`) and the backends (`memory`, `celestia`) are
declared by the crate but their sources are not part of this tree; they are
modelled from the specification, which treats them as opaque value types
with algorithm-tagged sign/verify, a black-box deterministic codec, and a
bounded lossy broadcast channel.
-/

deriving instance DecidableEq for Except

/-- A byte. -/
abbrev Byte := Fin 256

/-- Opaque fixed-size digest (modelled from the spec: an opaque value type
supporting equality and deterministic byte encoding). -/
abbrev Digest := Byte

/-- Opaque serializable zero-knowledge proof value (modelled from the spec:
treated as an opaque, serializable value attached to the epoch). -/
abbrev SP1ProofWithPublicValues := List Byte

/-- Modelled from the spec: hex encoding of raw bytes (`prism_serde::hex::ToHex`,
not in this tree).  Each byte becomes two lowercase hex digits. -/
def toHexNibble (n : Nat) : Char :=
  if n < 10 then Char.ofNat (48 + n) else Char.ofNat (87 + n)

/-- Modelled from the spec: hex encoding of a byte string. -/
def to_hex : List Byte → List Char
  | [] => []
  | b :: bs => toHexNibble (b.val / 16) :: toHexNibble (b.val % 16) :: to_hex bs

/-- Modelled from the spec: value of one hex digit (`0`-`9`, `a`-`f`, `A`-`F`),
or `none` for a non-hex character. -/
def hexNibbleVal (c : Char) : Option Nat :=
  if 48 ≤ c.toNat ∧ c.toNat ≤ 57 then some (c.toNat - 48)
  else if 97 ≤ c.toNat ∧ c.toNat ≤ 102 then some (c.toNat - 87)
  else if 65 ≤ c.toNat ∧ c.toNat ≤ 70 then some (c.toNat - 55)
  else none

/-- Modelled from the spec: hex decoding (`prism_serde::hex::FromHex`, not in
this tree).  Fails on a non-hex character or an odd-length string. -/
def from_hex : List Char → Except String (List Byte)
  | [] => .ok []
  | [_] => .error "odd length hex string"
  | c1 :: c2 :: rest =>
    match hexNibbleVal c1, hexNibbleVal c2 with
    | some hi, some lo =>
      match from_hex rest with
      | .ok bs => .ok (⟨(16 * hi + lo) % 256, Nat.mod_lt _ (by norm_num)⟩ :: bs)
      | .error e => .error e
    | _, _ => .error "invalid hex character"

/-- `FinalizedEpoch` is the data structure that represents the finalized epoch
data, and is posted to the DA layer (struct from `src/crates/da/src/lib.rs`). -/
structure FinalizedEpoch where
  height : Nat
  prev_commitment : Digest
  current_commitment : Digest
  proof : SP1ProofWithPublicValues
  signature : Option (List Char)
deriving DecidableEq

/-- The epoch with its `signature` field cleared — the unsigned view that
`verify_signature` rebuilds field by field. -/
def FinalizedEpoch.without_signature (e : FinalizedEpoch) : FinalizedEpoch :=
  { height := e.height
    prev_commitment := e.prev_commitment
    current_commitment := e.current_commitment
    proof := e.proof
    signature := none }

/-- Modelled from the spec: signature algorithm tag (`prism_keys`, not in this
tree; the spec only requires keys be algorithm-tagged). -/
abbrev Algorithm := Byte

/-- Modelled from the spec: a signing key (`prism_keys::SigningKey`). -/
structure SigningKey where
  alg : Algorithm
  keyId : Byte
deriving DecidableEq

/-- Modelled from the spec: a verifying key (`prism_keys::VerifyingKey`). -/
structure VerifyingKey where
  alg : Algorithm
  keyId : Byte
deriving DecidableEq

/-- The verifying key of a signing key. -/
def SigningKey.verifyingKey (k : SigningKey) : VerifyingKey :=
  { alg := k.alg, keyId := k.keyId }

/-- The algorithm associated with a verifying key (`vk.algorithm()`). -/
def VerifyingKey.algorithm (vk : VerifyingKey) : Algorithm := vk.alg

/-- Modelled from the spec: a signature value (`prism_keys::Signature`).  In
the ideal-scheme model a signature records the algorithm, the signer and the
signed message. -/
structure Signature where
  alg : Algorithm
  signer : Byte
  msg : List Byte
deriving DecidableEq

/-- Modelled from the spec: signing a message (`key.sign(&plaintext)`).  The
ideal scheme is deterministic and binds the key and the exact message. -/
def SigningKey.sign (k : SigningKey) (m : List Byte) : Signature :=
  { alg := k.alg, signer := k.keyId, msg := m }

/-- Modelled from the spec: raw byte serialization of a signature
(`signature.to_bytes()`). -/
def Signature.to_bytes (s : Signature) : List Byte :=
  s.alg :: s.signer :: s.msg

/-- Modelled from the spec: parse raw bytes as a signature of a given
algorithm (`Signature::from_algorithm_and_bytes`); fails when the bytes have
the wrong length or belong to a different algorithm. -/
def Signature.from_algorithm_and_bytes (alg : Algorithm) (bs : List Byte) :
    Except String Signature :=
  match bs with
  | a :: signer :: msg =>
    if a = alg then .ok { alg := alg, signer := signer, msg := msg }
    else .error "algorithm mismatch"
  | _ => .error "invalid signature length"

/-- Modelled from the spec: cryptographic verification
(`vk.verify_signature(&message, &signature)`): the ideal scheme accepts
exactly the signature produced by the matching signing key over the same
message, and rejects any other message, signer or algorithm. -/
def VerifyingKey.verify_signature (vk : VerifyingKey) (m : List Byte)
    (s : Signature) : Except String Unit :=
  if s.alg = vk.alg ∧ s.signer = vk.keyId ∧ s.msg = m then .ok ()
  else .error "signature does not verify"

/-- Modelled from the spec: the canonical byte codec
(`prism_serde::binary::ToBinary`, not in this tree) is a black-box
deterministic serialization of a `FinalizedEpoch` that may fail
(`EncodingError` in the spec's taxonomy). -/
structure Codec where
  encode_to_bytes : FinalizedEpoch → Except String (List Byte)

/-- The spec's round-trip requirement on the codec: encoding round-trips to an
equal record, i.e. two records with the same successful encoding are equal. -/
def Codec.Injective (c : Codec) : Prop :=
  ∀ a b bs, c.encode_to_bytes a = .ok bs → c.encode_to_bytes b = .ok bs → a = b

/-- The five signature-protocol failure kinds of the spec's error taxonomy,
in the order `verify_signature` can produce them. -/
inductive VerifyError where
  | encodingError
  | missingSignature
  | signatureDecodeError
  | algorithmOrLengthMismatch
  | cryptographicMismatch
deriving DecidableEq

/-- `FinalizedEpoch::insert_signature` from `src/crates/da/src/lib.rs`:
encodes `self` as it currently is (including any present `signature` field),
signs those bytes, and stores the hex of the signature.  The source unwraps
the encoding result, aborting the process on failure; the abort is modelled
as `none`. -/
def FinalizedEpoch.insert_signature (c : Codec) (e : FinalizedEpoch)
    (key : SigningKey) : Option FinalizedEpoch :=
  match c.encode_to_bytes e with
  | .error _ => none
  | .ok plaintext =>
    some { e with signature := some (to_hex (SigningKey.sign key plaintext).to_bytes) }

/-- `FinalizedEpoch::verify_signature` from `src/crates/da/src/lib.rs`:
rebuilds the unsigned view, encodes it, requires a signature to be present,
hex-decodes it, parses the bytes for the verifying key's algorithm, and
cryptographically verifies.  The checks run in exactly the source's order. -/
def FinalizedEpoch.verify_signature (c : Codec) (e : FinalizedEpoch)
    (vk : VerifyingKey) : Except VerifyError Unit :=
  match c.encode_to_bytes e.without_signature with
  | .error _ => .error .encodingError
  | .ok message =>
    match e.signature with
    | none => .error .missingSignature
    | some signature =>
      match from_hex signature with
      | .error _ => .error .signatureDecodeError
      | .ok signature_bytes =>
        match Signature.from_algorithm_and_bytes vk.algorithm signature_bytes with
        | .error _ => .error .algorithmOrLengthMismatch
        | .ok sig =>
          match vk.verify_signature message sig with
          | .error _ => .error .cryptographicMismatch
          | .ok _ => .ok ()

/-- Unary length encoding used by the concrete model codec: `n` ones then a
zero.  Prefix-free, which makes the codec injective. -/
def encNat (n : Nat) : List Byte :=
  List.replicate n 1 ++ [0]

/-- Concrete model codec, characters component: each character as its unary
code point. -/
def encChars : List Char → List Byte
  | [] => []
  | ch :: s => encNat ch.toNat ++ encChars s

/-- Concrete model codec, optional-signature component: a tag byte followed by
a length-prefixed character string. -/
def encSig : Option (List Char) → List Byte
  | none => [0]
  | some s => 1 :: (encNat s.length ++ encChars s)

/-- Concrete model codec for a whole epoch: height, both commitments,
length-prefixed proof bytes, then the signature option.  A deterministic,
injective instance of the spec's black-box codec. -/
def encodeEpoch (e : FinalizedEpoch) : List Byte :=
  encNat e.height ++
    e.prev_commitment :: e.current_commitment ::
    (encNat e.proof.length ++ e.proof ++ encSig e.signature)

/-- A total, injective instance of the canonical codec. -/
def binaryCodec : Codec :=
  { encode_to_bytes := fun e => .ok (encodeEpoch e) }

/-- A codec instance that fails on epochs of height 99 and otherwise encodes
like `binaryCodec` — the spec's taxonomy allows canonical encoding to fail
(`EncodingError`), and the codec is an explicitly swappable black box. -/
def failingCodec : Codec :=
  { encode_to_bytes := fun e =>
      if e.height = 99 then .error "unsupported epoch" else .ok (encodeEpoch e) }

/-- Modelled from the spec: the in-memory test backend (the crate's `memory`
module, not in this tree).  Epochs are stored in submission order; the height
of a record is its index. -/
structure InMemoryDA where
  epochs : List FinalizedEpoch

/-- Modelled from the spec: `get_finalized_epoch` returns the epoch at
`height` if one was posted, or an explicit absent result (`Ok(None)`) if none
exists at that height — absence is not an error. -/
def InMemoryDA.get_finalized_epoch (da : InMemoryDA) (height : Nat) :
    Except String (Option FinalizedEpoch) :=
  .ok da.epochs[height]?

/-- Modelled from the spec: `submit_finalized_epoch` publishes the epoch and
returns the backend-assigned height at which it was recorded. -/
def InMemoryDA.submit_finalized_epoch (da : InMemoryDA) (e : FinalizedEpoch) :
    InMemoryDA × Nat :=
  ({ epochs := da.epochs ++ [e] }, da.epochs.length)

/-- Modelled from the spec: the height-notification broadcast state — the
sequence of heights the backend has observed so far, oldest first
(`tokio::sync::broadcast` is outside this tree). -/
structure HeightChannel where
  published : List Nat

/-- A newly observed height is appended to the stream. -/
def HeightChannel.publish (ch : HeightChannel) (h : Nat) : HeightChannel :=
  { published := ch.published ++ [h] }

/-- Modelled from the spec: `subscribe_to_heights` returns a fresh receiver
positioned at the current end of the stream, so it sees only heights observed
after subscription.  A receiver is its read position. -/
def HeightChannel.subscribe_to_heights (ch : HeightChannel) : Nat :=
  ch.published.length

/-- Modelled from the spec: receiving on a bounded (capacity `cap`), lossy
broadcast receiver.  A receiver that lags more than `cap` values behind skips
forward to the oldest retained value; values are never re-ordered. -/
def HeightChannel.recv (cap : Nat) (ch : HeightChannel) (pos : Nat) :
    Option (Nat × Nat) :=
  let p := max pos (ch.published.length - cap)
  match ch.published[p]? with
  | some h => some (h, p + 1)
  | none => none

/-- An interleaving of backend publications and one subscriber's receives. -/
inductive DAEvent where
  | publishHeight (h : Nat)
  | pollRecv

/-- Run an interleaving: final channel state, final receiver position, and the
list of heights the subscriber received, in order. -/
def runChannel (cap : Nat) :
    List DAEvent → HeightChannel → Nat → List Nat → HeightChannel × Nat × List Nat
  | [], ch, pos, out => (ch, pos, out)
  | DAEvent.publishHeight h :: evs, ch, pos, out =>
    runChannel cap evs (ch.publish h) pos out
  | DAEvent.pollRecv :: evs, ch, pos, out =>
    match HeightChannel.recv cap ch pos with
    | some (h, p) => runChannel cap evs ch p (out ++ [h])
    | none => runChannel cap evs ch pos out

/-- A concrete signing key for the concrete checks. -/
def keyA : SigningKey := { alg := 1, keyId := 2 }

/-- A concrete unsigned epoch. -/
def epochA : FinalizedEpoch :=
  { height := 0, prev_commitment := 0, current_commitment := 0,
    proof := [], signature := none }

/-- A concrete epoch that already carries a signature (the empty string — 
valid hex) before `insert_signature` is called. -/
def epochPre : FinalizedEpoch :=
  { height := 0, prev_commitment := 0, current_commitment := 0,
    proof := [], signature := some [] }

theorem encNat_succ (n : Nat) : encNat (n + 1) = 1 :: encNat n := by
  simp [encNat, List.replicate_succ]

theorem encNat_append_cancel :
    ∀ (a b : Nat) (r1 r2 : List Byte),
      encNat a ++ r1 = encNat b ++ r2 → a = b ∧ r1 = r2 := by
  intro a
  induction a with
  | zero =>
    intro b r1 r2 h
    cases b with
    | zero => simpa [encNat] using h
    | succ b =>
      rw [encNat_succ] at h
      simp [encNat] at h
  | succ a ih =>
    intro b r1 r2 h
    cases b with
    | zero =>
      rw [encNat_succ] at h
      simp [encNat] at h
    | succ b =>
      rw [encNat_succ, encNat_succ] at h
      simp only [List.cons_append, List.cons.injEq, true_and] at h
      obtain ⟨h1, h2⟩ := ih b r1 r2 h
      exact ⟨by omega, h2⟩

theorem char_toNat_inj {a b : Char} (h : a.toNat = b.toNat) : a = b := by
  apply Char.eq_of_val_eq
  apply UInt32.toNat.inj
  exact h

theorem encChars_cancel :
    ∀ (s1 s2 : List Char), s1.length = s2.length →
      encChars s1 = encChars s2 → s1 = s2 := by
  intro s1
  induction s1 with
  | nil =>
    intro s2 hlen _
    cases s2 with
    | nil => rfl
    | cons c s2 => simp at hlen
  | cons c1 t1 ih =>
    intro s2 hlen henc
    cases s2 with
    | nil => simp at hlen
    | cons c2 t2 =>
      simp only [encChars, List.append_assoc] at henc
      obtain ⟨hc, ht⟩ := encNat_append_cancel _ _ _ _
        (by simpa [encChars] using henc)
      have : t1 = t2 := ih t2 (by simpa using hlen) (by simpa using ht)
      exact by rw [char_toNat_inj hc, this]

theorem encSig_cancel :
    ∀ (s1 s2 : Option (List Char)), encSig s1 = encSig s2 → s1 = s2 := by
  intro s1 s2 h
  cases s1 with
  | none =>
    cases s2 with
    | none => rfl
    | some s2 => simp [encSig] at h
  | some s1 =>
    cases s2 with
    | none => simp [encSig] at h
    | some s2 =>
      simp only [encSig, List.cons.injEq, true_and] at h
      obtain ⟨hlen, hchars⟩ := encNat_append_cancel _ _ _ _ h
      rw [encChars_cancel s1 s2 hlen hchars]

theorem encodeEpoch_injective {a b : FinalizedEpoch}
    (h : encodeEpoch a = encodeEpoch b) : a = b := by
  unfold encodeEpoch at h
  obtain ⟨hh, h⟩ := encNat_append_cancel _ _ _ _ h
  simp only [List.cons.injEq] at h
  obtain ⟨hp, hc, h⟩ := h
  rw [List.append_assoc, List.append_assoc] at h
  obtain ⟨hlen, h⟩ := encNat_append_cancel _ _ _ _ h
  obtain ⟨hproof, hsig⟩ := List.append_inj h hlen
  have hs := encSig_cancel _ _ hsig
  cases a; cases b
  simp_all

theorem binaryCodec_injective : binaryCodec.Injective := by
  intro a b bs ha hb
  simp only [binaryCodec, Except.ok.injEq] at ha hb
  exact encodeEpoch_injective (ha.trans hb.symm)

theorem hexNibbleVal_toHexNibble (n : Nat) (h : n < 16) :
    hexNibbleVal (toHexNibble n) = some n := by
  interval_cases n <;> rfl

theorem from_hex_to_hex : ∀ bs : List Byte, from_hex (to_hex bs) = .ok bs := by
  intro bs
  induction bs with
  | nil => rfl
  | cons b bs ih =>
    have hhi : b.val / 16 < 16 := by omega
    have hlo : b.val % 16 < 16 := by omega
    simp only [to_hex, from_hex, hexNibbleVal_toHexNibble _ hhi,
      hexNibbleVal_toHexNibble _ hlo, ih]
    congr 1
    apply List.cons_eq_cons.mpr
    refine ⟨?_, rfl⟩
    apply Fin.ext
    simp [Nat.div_add_mod, Nat.mod_eq_of_lt b.isLt]

theorem without_signature_of_unsigned {e : FinalizedEpoch}
    (h : e.signature = none) : e.without_signature = e := by
  cases e
  simp_all [FinalizedEpoch.without_signature]

theorem without_signature_insert (e : FinalizedEpoch) (s : List Char) :
    FinalizedEpoch.without_signature { e with signature := some s } =
      e.without_signature := by
  cases e
  simp [FinalizedEpoch.without_signature]

/-- C1 counterexample: the round-trip claim fails for an epoch that already
carries a signature before `insert_signature` is called.  `epochPre` carries
the (valid-hex) empty-string signature; re-signing it signs the encoding that
still contains that old signature, so verification against the signer's own
verifying key ends in `CryptographicMismatch` instead of success. -/
theorem c1_round_trip_counterexample :
    epochPre.signature = some [] ∧
    (FinalizedEpoch.insert_signature binaryCodec epochPre keyA).map
      (fun e => FinalizedEpoch.verify_signature binaryCodec e
        (SigningKey.verifyingKey keyA)) =
      some (.error .cryptographicMismatch) := by
  exact ⟨rfl, by decide⟩

/-- C1 (amended): for every codec, signing key, and epoch whose `signature`
field is `None`, if `insert_signature` completes (the encoding did not abort)
then `verify_signature` on the result with the signer's verifying key
succeeds. -/
theorem c1_round_trip (c : Codec) (e e' : FinalizedEpoch) (k : SigningKey)
    (hsig : e.signature = none)
    (hins : FinalizedEpoch.insert_signature c e k = some e') :
    FinalizedEpoch.verify_signature c e' (SigningKey.verifyingKey k) = .ok () := by
  cases henc : c.encode_to_bytes e with
  | error msg => simp [FinalizedEpoch.insert_signature, henc] at hins
  | ok pt =>
    simp only [FinalizedEpoch.insert_signature, henc, Option.some.injEq] at hins
    subst hins
    simp [FinalizedEpoch.verify_signature, without_signature_insert,
      without_signature_of_unsigned hsig, henc, from_hex_to_hex,
      SigningKey.sign, Signature.to_bytes, Signature.from_algorithm_and_bytes,
      SigningKey.verifyingKey, VerifyingKey.algorithm,
      VerifyingKey.verify_signature]

/-- C1 witness: the round trip at a concrete unsigned epoch and key. -/
theorem c1_round_trip_witness :
    FinalizedEpoch.verify_signature binaryCodec
      { epochA with
          signature :=
            some ['0', '1', '0', '2', '0', '0', '0', '0', '0', '0', '0', '0', '0', '0'] }
      (SigningKey.verifyingKey keyA) = .ok () :=
  c1_round_trip binaryCodec epochA _ keyA rfl (by decide)

/-- C2 counterexample: for an already-signed epoch the bytes passed to the
signing key are not the canonical encoding with `signature` cleared.  The
cleared encoding of `epochPre` is `[0,0,0,0,0]`, but `insert_signature` does
not store the hex signature over those bytes. -/
theorem c2_signs_cleared_counterexample :
    binaryCodec.encode_to_bytes epochPre.without_signature = .ok [0, 0, 0, 0, 0] ∧
    FinalizedEpoch.insert_signature binaryCodec epochPre keyA ≠
      some { epochPre with
               signature :=
                 some (to_hex (SigningKey.sign keyA [0, 0, 0, 0, 0]).to_bytes) } := by
  exact ⟨by decide, by decide⟩

/-- C2 (amended): `insert_signature` signs the canonical encoding of the epoch
as it currently is — including any present `signature` field — and stores the
hex-encoded signature in `signature`; only for an unsigned epoch do those
bytes coincide with the signature-cleared encoding. -/
theorem c2_signs_current_encoding (c : Codec) (e : FinalizedEpoch)
    (k : SigningKey) (pt : List Byte)
    (henc : c.encode_to_bytes e = .ok pt) :
    FinalizedEpoch.insert_signature c e k =
      some { e with signature := some (to_hex (SigningKey.sign k pt).to_bytes) } := by
  simp [FinalizedEpoch.insert_signature, henc]

/-- C2 witness: the signing equation at a concrete epoch, key, and encoding. -/
theorem c2_signs_current_encoding_witness :
    binaryCodec.encode_to_bytes epochA = .ok [0, 0, 0, 0, 0] ∧
    FinalizedEpoch.insert_signature binaryCodec epochA keyA =
      some { epochA with
               signature :=
                 some (to_hex (SigningKey.sign keyA [0, 0, 0, 0, 0]).to_bytes) } :=
  ⟨by decide, c2_signs_current_encoding binaryCodec epochA keyA _ (by decide)⟩

theorem verify_mismatch_of_wrong_view (c : Codec) (hc : c.Injective)
    (e e2 : FinalizedEpoch) (k : SigningKey) (pt m : List Byte)
    (henc : c.encode_to_bytes e = .ok pt)
    (henc2 : c.encode_to_bytes e2.without_signature = .ok m)
    (hsig2 : e2.signature = some (to_hex (SigningKey.sign k pt).to_bytes))
    (hne : e2.without_signature ≠ e) :
    FinalizedEpoch.verify_signature c e2 (SigningKey.verifyingKey k) =
      .error .cryptographicMismatch := by
  have hpm : pt ≠ m := by
    intro hmp
    exact hne (hc _ _ _ henc2 (hmp ▸ henc))
  simp [FinalizedEpoch.verify_signature, henc2, hsig2, from_hex_to_hex,
    SigningKey.sign, Signature.to_bytes, Signature.from_algorithm_and_bytes,
    SigningKey.verifyingKey, VerifyingKey.algorithm,
    VerifyingKey.verify_signature, hpm]

/-- C3 (amended): for every injective codec and every epoch signed with key
`K`, mutating any one of `height`, `prev_commitment`, `current_commitment`,
or `proof` to a different value after signing makes `verify_signature` with
`K`'s verifying key return `CryptographicMismatch` — provided the canonical
encoding of the mutated unsigned view itself succeeds (if it fails, the
earlier encoding check reports `EncodingError` instead). -/
theorem c3_tamper_sensitivity (c : Codec) (e e' : FinalizedEpoch)
    (k : SigningKey) (hc : c.Injective)
    (hins : FinalizedEpoch.insert_signature c e k = some e') :
    (∀ v m, v ≠ e'.height →
      c.encode_to_bytes (FinalizedEpoch.without_signature { e' with height := v }) = .ok m →
      FinalizedEpoch.verify_signature c { e' with height := v }
        (SigningKey.verifyingKey k) = .error .cryptographicMismatch) ∧
    (∀ v m, v ≠ e'.prev_commitment →
      c.encode_to_bytes (FinalizedEpoch.without_signature { e' with prev_commitment := v }) = .ok m →
      FinalizedEpoch.verify_signature c { e' with prev_commitment := v }
        (SigningKey.verifyingKey k) = .error .cryptographicMismatch) ∧
    (∀ v m, v ≠ e'.current_commitment →
      c.encode_to_bytes (FinalizedEpoch.without_signature { e' with current_commitment := v }) = .ok m →
      FinalizedEpoch.verify_signature c { e' with current_commitment := v }
        (SigningKey.verifyingKey k) = .error .cryptographicMismatch) ∧
    (∀ v m, v ≠ e'.proof →
      c.encode_to_bytes (FinalizedEpoch.without_signature { e' with proof := v }) = .ok m →
      FinalizedEpoch.verify_signature c { e' with proof := v }
        (SigningKey.verifyingKey k) = .error .cryptographicMismatch) := by
  cases henc : c.encode_to_bytes e with
  | error msg => simp [FinalizedEpoch.insert_signature, henc] at hins
  | ok pt =>
    simp only [FinalizedEpoch.insert_signature, henc, Option.some.injEq] at hins
    subst hins
    obtain ⟨eh, ep, ec, epr, es⟩ := e
    refine ⟨?_, ?_, ?_, ?_⟩ <;>
      · intro v m hv henc2
        refine verify_mismatch_of_wrong_view c hc ⟨eh, ep, ec, epr, es⟩ _ k pt m
          henc henc2 rfl ?_
        intro hEq
        cases es <;> simp_all [FinalizedEpoch.without_signature]

/-- C3 counterexample (to the claim as stated): under a codec that cannot
encode epochs of height 99, mutating the height of a signed epoch to 99 makes
verification fail with `EncodingError`, not `CryptographicMismatch`. -/
theorem c3_tamper_counterexample :
    (99 : Nat) ≠ epochA.height ∧
    (FinalizedEpoch.insert_signature failingCodec epochA keyA).map
      (fun e => FinalizedEpoch.verify_signature failingCodec { e with height := 99 }
        (SigningKey.verifyingKey keyA)) = some (.error .encodingError) := by
  exact ⟨by decide, by decide⟩

/-- C3 witness: tampering with the height of a concretely signed epoch is
detected as `CryptographicMismatch`. -/
theorem c3_tamper_witness :
    FinalizedEpoch.verify_signature binaryCodec
      { { epochA with
            signature :=
              some ['0', '1', '0', '2', '0', '0', '0', '0', '0', '0', '0', '0', '0', '0'] } with
          height := 5 }
      (SigningKey.verifyingKey keyA) = .error .cryptographicMismatch :=
  (c3_tamper_sensitivity binaryCodec epochA
      { epochA with
          signature :=
            some ['0', '1', '0', '2', '0', '0', '0', '0', '0', '0', '0', '0', '0', '0'] }
      keyA binaryCodec_injective (by decide)).1
    5 [1, 1, 1, 1, 1, 0, 0, 0, 0, 0] (by decide) (by decide)

/-- C4: for every codec and verifying key, verifying an epoch whose
`signature` field is `None` fails with `MissingSignature` (it neither
succeeds nor aborts), provided canonical encoding of the unsigned view
succeeds. -/
theorem c4_missing_signature (c : Codec) (e : FinalizedEpoch)
    (vk : VerifyingKey) (m : List Byte)
    (hsig : e.signature = none)
    (henc : c.encode_to_bytes e.without_signature = .ok m) :
    FinalizedEpoch.verify_signature c e vk = .error .missingSignature := by
  simp [FinalizedEpoch.verify_signature, henc, hsig]

/-- C4 witness: a concrete unsigned epoch fails with `MissingSignature`. -/
theorem c4_missing_signature_witness :
    FinalizedEpoch.verify_signature binaryCodec epochA
      (SigningKey.verifyingKey keyA) = .error .missingSignature :=
  c4_missing_signature binaryCodec epochA (SigningKey.verifyingKey keyA)
    [0, 0, 0, 0, 0] rfl (by decide)

/-- C5 counterexample (to the claim as stated): an epoch whose signature is
the non-hex string `"zz"` but whose unsigned view a codec cannot encode is
rejected with `EncodingError`, not `SignatureDecodeError` — the encoding
check runs first. -/
theorem c5_nonhex_counterexample :
    (∃ err, from_hex ['z', 'z'] = .error err) ∧
    FinalizedEpoch.verify_signature failingCodec
      { height := 99, prev_commitment := 0, current_commitment := 0,
        proof := [], signature := some ['z', 'z'] }
      (SigningKey.verifyingKey keyA) = .error .encodingError ∧
    VerifyError.encodingError ≠ VerifyError.signatureDecodeError := by
  exact ⟨⟨"invalid hex character", by decide⟩, by decide, by decide⟩

/-- C5 (amended): for every codec and verifying key, an epoch whose
`signature` holds a string that is not valid hex is rejected with
`SignatureDecodeError`, provided canonical encoding of the unsigned view
succeeds. -/
theorem c5_signature_decode_error (c : Codec) (e : FinalizedEpoch)
    (vk : VerifyingKey) (m : List Byte) (s : List Char) (err : String)
    (henc : c.encode_to_bytes e.without_signature = .ok m)
    (hsig : e.signature = some s)
    (hhex : from_hex s = .error err) :
    FinalizedEpoch.verify_signature c e vk = .error .signatureDecodeError := by
  simp [FinalizedEpoch.verify_signature, henc, hsig, hhex]

/-- C5 witness: a concrete epoch carrying the non-hex signature `"zz"`. -/
theorem c5_signature_decode_error_witness :
    FinalizedEpoch.verify_signature binaryCodec
      { epochA with signature := some ['z', 'z'] }
      (SigningKey.verifyingKey keyA) = .error .signatureDecodeError :=
  c5_signature_decode_error binaryCodec { epochA with signature := some ['z', 'z'] }
    (SigningKey.verifyingKey keyA) [0, 0, 0, 0, 0] ['z', 'z']
    "invalid hex character" (by decide) rfl (by decide)

/-- C6 counterexample (to the claim as stated): an epoch whose stored
signature hex-decodes to a single byte (not a valid signature for any
algorithm of the model) but whose unsigned view a codec cannot encode is
rejected with `EncodingError`, not `AlgorithmOrLengthMismatch`. -/
theorem c6_siglen_counterexample :
    from_hex ['0', '0'] = .ok [0] ∧
    (∃ err, Signature.from_algorithm_and_bytes
      (VerifyingKey.algorithm (SigningKey.verifyingKey keyA)) [0] = .error err) ∧
    FinalizedEpoch.verify_signature failingCodec
      { height := 99, prev_commitment := 0, current_commitment := 0,
        proof := [], signature := some ['0', '0'] }
      (SigningKey.verifyingKey keyA) = .error .encodingError := by
  exact ⟨by decide, ⟨"invalid signature length", by decide⟩, by decide⟩

/-- C6 (amended): for every codec and verifying key, when the stored
signature hex-decodes to bytes that do not parse as a signature for the
verifying key's algorithm (wrong length or wrong algorithm),
`verify_signature` fails with `AlgorithmOrLengthMismatch` — it neither
succeeds nor aborts — provided canonical encoding of the unsigned view
succeeds. -/
theorem c6_algorithm_or_length_mismatch (c : Codec) (e : FinalizedEpoch)
    (vk : VerifyingKey) (m : List Byte) (s : List Char) (bs : List Byte)
    (err : String)
    (henc : c.encode_to_bytes e.without_signature = .ok m)
    (hsig : e.signature = some s)
    (hhex : from_hex s = .ok bs)
    (hparse : Signature.from_algorithm_and_bytes vk.algorithm bs = .error err) :
    FinalizedEpoch.verify_signature c e vk = .error .algorithmOrLengthMismatch := by
  simp [FinalizedEpoch.verify_signature, henc, hsig, hhex, hparse]

/-- C6 witness: a concrete epoch whose signature decodes to one byte. -/
theorem c6_algorithm_or_length_mismatch_witness :
    FinalizedEpoch.verify_signature binaryCodec
      { epochA with signature := some ['0', '0'] }
      (SigningKey.verifyingKey keyA) = .error .algorithmOrLengthMismatch :=
  c6_algorithm_or_length_mismatch binaryCodec
    { epochA with signature := some ['0', '0'] }
    (SigningKey.verifyingKey keyA) [0, 0, 0, 0, 0] ['0', '0'] [0]
    "invalid signature length" (by decide) rfl (by decide) (by decide)

/-- C7: when canonical encoding of an epoch fails, `insert_signature` aborts
(the source unwraps the encoding result, modelled as `none`) instead of
returning a recoverable error, while `verify_signature` — whose encoding of
the unsigned view also fails — returns the recoverable `EncodingError` for
every verifying key. -/
theorem c7_encoding_failure_abort (c : Codec) (e : FinalizedEpoch)
    (k : SigningKey) (err err2 : String)
    (h1 : c.encode_to_bytes e = .error err)
    (h2 : c.encode_to_bytes e.without_signature = .error err2) :
    FinalizedEpoch.insert_signature c e k = none ∧
    ∀ vk, FinalizedEpoch.verify_signature c e vk = .error .encodingError := by
  constructor
  · simp [FinalizedEpoch.insert_signature, h1]
  · intro vk
    simp [FinalizedEpoch.verify_signature, h2]

/-- C7 witness: a concrete unsigned epoch of height 99 under the codec that
cannot encode height 99. -/
theorem c7_encoding_failure_abort_witness :
    FinalizedEpoch.insert_signature failingCodec { epochA with height := 99 } keyA = none ∧
    FinalizedEpoch.verify_signature failingCodec { epochA with height := 99 }
      (SigningKey.verifyingKey keyA) = .error .encodingError :=
  ⟨(c7_encoding_failure_abort failingCodec { epochA with height := 99 } keyA
      "unsupported epoch" "unsupported epoch" (by decide) (by decide)).1,
   (c7_encoding_failure_abort failingCodec { epochA with height := 99 } keyA
      "unsupported epoch" "unsupported epoch" (by decide) (by decide)).2
     (SigningKey.verifyingKey keyA)⟩

/-- C8: the in-memory backend model distinguishes absence from failure — at
every height at which no epoch was posted (a height beyond the submitted
range), `get_finalized_epoch` returns the explicit absent value `Ok(None)`,
not an error. -/
theorem c8_absent_is_not_error (da : InMemoryDA) (height : Nat)
    (h : da.epochs.length ≤ height) :
    da.get_finalized_epoch height = .ok none := by
  simp [InMemoryDA.get_finalized_epoch, List.getElem?_eq_none h]

/-- C8 witness: a backend holding one epoch answers `Ok(None)` at height 1. -/
theorem c8_absent_is_not_error_witness :
    InMemoryDA.get_finalized_epoch { epochs := [epochA] } 1 = .ok none :=
  c8_absent_is_not_error { epochs := [epochA] } 1 (by decide)

/-- C10: `insert_signature` modifies only the `signature` field — whenever it
completes, `height`, `prev_commitment`, `current_commitment`, and `proof` are
unchanged and `signature` holds `Some` of a valid hex string (one that
hex-decodes successfully). -/
theorem c10_frame_only_signature (c : Codec) (e e' : FinalizedEpoch)
    (k : SigningKey)
    (hins : FinalizedEpoch.insert_signature c e k = some e') :
    e'.height = e.height ∧ e'.prev_commitment = e.prev_commitment ∧
    e'.current_commitment = e.current_commitment ∧ e'.proof = e.proof ∧
    ∃ s bs, e'.signature = some s ∧ from_hex s = .ok bs := by
  cases henc : c.encode_to_bytes e with
  | error msg => simp [FinalizedEpoch.insert_signature, henc] at hins
  | ok pt =>
    simp only [FinalizedEpoch.insert_signature, henc, Option.some.injEq] at hins
    subst hins
    exact ⟨rfl, rfl, rfl, rfl, _, _, rfl, from_hex_to_hex _⟩

/-- C10 witness: the frame property at a concrete epoch and key. -/
theorem c10_frame_only_signature_witness :
    (let e' := { epochA with
                   signature :=
                     some ['0', '1', '0', '2', '0', '0',
                           '0', '0', '0', '0', '0', '0', '0', '0'] };
     e'.height = epochA.height ∧ e'.prev_commitment = epochA.prev_commitment ∧
     e'.current_commitment = epochA.current_commitment ∧ e'.proof = epochA.proof ∧
     ∃ s bs, e'.signature = some s ∧ from_hex s = .ok bs) :=
  c10_frame_only_signature binaryCodec epochA _ keyA (by decide)

theorem runChannel_invariant (cap : Nat) (evs : List DAEvent) :
    ∀ (ch : HeightChannel) (pos : Nat) (out : List Nat) (s : Nat),
      s ≤ pos → pos ≤ ch.published.length →
      out.Sublist ((ch.published.take pos).drop s) →
      s ≤ (runChannel cap evs ch pos out).2.1 ∧
      (runChannel cap evs ch pos out).2.1 ≤
        (runChannel cap evs ch pos out).1.published.length ∧
      (runChannel cap evs ch pos out).2.2.Sublist
        (((runChannel cap evs ch pos out).1.published.take
          (runChannel cap evs ch pos out).2.1).drop s) := by
  induction evs with
  | nil =>
    intro ch pos out s hs hp hout
    exact ⟨hs, hp, hout⟩
  | cons ev evs ih =>
    intro ch pos out s hs hp hout
    cases ev with
    | publishHeight h =>
      simp only [runChannel]
      apply ih (ch.publish h) pos out s hs
      · simp only [HeightChannel.publish, List.length_append, List.length_cons,
          List.length_nil]
        omega
      · have htake : (ch.publish h).published.take pos = ch.published.take pos := by
          simp [HeightChannel.publish, List.take_append_eq_append_take,
            Nat.sub_eq_zero_of_le hp]
        rw [htake]
        exact hout
    | pollRecv =>
      cases hg : ch.published[max pos (ch.published.length - cap)]? with
      | none =>
        have hr : HeightChannel.recv cap ch pos = none := by
          simp [HeightChannel.recv, hg]
        simp only [runChannel, hr]
        exact ih ch pos out s hs hp hout
      | some hv =>
        have hr : HeightChannel.recv cap ch pos =
            some (hv, max pos (ch.published.length - cap) + 1) := by
          simp [HeightChannel.recv, hg]
        simp only [runChannel, hr]
        have hpposle : pos ≤ max pos (ch.published.length - cap) :=
          le_max_left _ _
        have hplt : max pos (ch.published.length - cap) < ch.published.length := by
          by_contra hcon
          push_neg at hcon
          rw [List.getElem?_eq_none hcon] at hg
          exact absurd hg (by simp)
        apply ih ch (max pos (ch.published.length - cap) + 1) (out ++ [hv]) s
          (by omega) (by omega)
        have htake : ch.published.take (max pos (ch.published.length - cap) + 1) =
            ch.published.take (max pos (ch.published.length - cap)) ++ [hv] := by
          rw [List.take_succ, hg]
          rfl
        rw [htake]
        have hlen : (ch.published.take (max pos (ch.published.length - cap))).length =
            max pos (ch.published.length - cap) := by
          simp only [List.length_take]
          omega
        have hdrop : ((ch.published.take (max pos (ch.published.length - cap))) ++
            [hv]).drop s =
            ((ch.published.take (max pos (ch.published.length - cap))).drop s) ++ [hv] := by
          rw [List.drop_append_eq_append_drop, hlen]
          have hz : s - max pos (ch.published.length - cap) = 0 := by omega
          rw [hz]
          rfl
        rw [hdrop]
        apply List.Sublist.append ?_ (List.Sublist.refl [hv])
        have hsplit : ch.published.take (max pos (ch.published.length - cap)) =
            ch.published.take pos ++
              (ch.published.drop pos).take (max pos (ch.published.length - cap) - pos) := by
          have hx : max pos (ch.published.length - cap) =
              pos + (max pos (ch.published.length - cap) - pos) := by omega
          conv_lhs => rw [hx]
          exact List.take_add _ _ _
        rw [hsplit, List.drop_append_eq_append_drop]
        have hlen2 : (ch.published.take pos).length = pos := by
          simp only [List.length_take]
          omega
        refine List.Sublist.trans hout ?_
        rw [hlen2]
        exact List.sublist_append_left _ _

/-- C9: a subscriber obtained from `subscribe_to_heights` reads through a
fresh per-subscriber cursor; over any interleaving of publications and
receives, the list of heights it receives is a sublist of the heights
observed by the backend after its subscription — so it receives only heights
observed after subscribing, may skip intermediate ones under a full bounded
buffer, and never receives a height out of order; in particular, when the
backend observes heights in non-decreasing order, the subscriber receives a
non-decreasing sequence. -/
theorem c9_subscriber_stream (cap : Nat) (ch0 : HeightChannel)
    (evs : List DAEvent)
    (hsorted : List.Sorted (· ≤ ·)
      (runChannel cap evs ch0 ch0.subscribe_to_heights []).1.published) :
    (runChannel cap evs ch0 ch0.subscribe_to_heights []).2.2.Sublist
      ((runChannel cap evs ch0 ch0.subscribe_to_heights []).1.published.drop
        ch0.published.length) ∧
    List.Sorted (· ≤ ·)
      (runChannel cap evs ch0 ch0.subscribe_to_heights []).2.2 := by
  obtain ⟨hs, hlen, hsub⟩ :=
    runChannel_invariant cap evs ch0 ch0.subscribe_to_heights []
      ch0.published.length le_rfl le_rfl (List.nil_sublist _)
  have hdropped :
      (runChannel cap evs ch0 ch0.subscribe_to_heights []).2.2.Sublist
        ((runChannel cap evs ch0 ch0.subscribe_to_heights []).1.published.drop
          ch0.published.length) := by
    refine hsub.trans ?_
    rw [List.drop_take]
    exact List.take_sublist _ _
  refine ⟨hdropped, ?_⟩
  exact hsorted.sublist (hdropped.trans (List.drop_sublist _ _))

/-- C9 witness: with capacity 1, a subscriber created when `[5]` had already
been observed, across publications of 6 and 7 followed by two receives, gets
exactly `[7]` — it misses the pre-subscription 5, lossily skips 6, and its
stream is in order. -/
theorem c9_subscriber_stream_witness :
    (runChannel 1
        [DAEvent.publishHeight 6, DAEvent.publishHeight 7,
         DAEvent.pollRecv, DAEvent.pollRecv]
        { published := [5] }
        (HeightChannel.subscribe_to_heights { published := [5] }) []).2.2.Sublist
      ((runChannel 1
          [DAEvent.publishHeight 6, DAEvent.publishHeight 7,
           DAEvent.pollRecv, DAEvent.pollRecv]
          { published := [5] }
          (HeightChannel.subscribe_to_heights { published := [5] }) []).1.published.drop
        (HeightChannel.mk [5]).published.length) ∧
    List.Sorted (· ≤ ·)
      (runChannel 1
        [DAEvent.publishHeight 6, DAEvent.publishHeight 7,
         DAEvent.pollRecv, DAEvent.pollRecv]
        { published := [5] }
        (HeightChannel.subscribe_to_heights { published := [5] }) []).2.2 :=
  c9_subscriber_stream 1 { published := [5] }
    [DAEvent.publishHeight 6, DAEvent.publishHeight 7,
     DAEvent.pollRecv, DAEvent.pollRecv]
    (by decide)
